import Mathlib

/-!
Verification of the fixed-width unsigned integer core (`fixed_bigint.rs`,
`fixed_sizes.rs`): digit-vector representation, truncating construction,
ordering, and carry-propagating addition.  Digits are 32-bit machine words,
modelled as `Nat` with explicit `% 2^32` where the machine wraps.
-/

namespace FixedNum

/-- Bit width of one digit (`big_digit::BITS`). -/
def BITS : Nat := 32

/-- The constant `big_digit::BASE = 1 << BITS`. -/
def BASE : Nat := 2 ^ 32

/-- Add with carry (`adc`): splits `a + b + carry` into `(lo, hi)` halves of a
double-width word; returns `(lo, carryOut)`. -/
def adc (a b carry : Nat) : Nat × Nat :=
  ((a + b + carry) % BASE, (a + b + carry) / BASE)

/-- The loop body of `ones_mask`: `mask = (mask << 1) | 1`, repeated. -/
def onesMaskLoop : Nat → Nat → Nat
  | 0, m => m
  | k + 1, m => onesMaskLoop k (2 * m + 1)

/-- The function `ones_mask(ones)`: builds a mask of `ones % 32` low one-bits. -/
def ones_mask (ones : Nat) : Nat :=
  onesMaskLoop (ones % BITS) 0

/-- Bitwise complement `!m` on a 32-bit word (for `m < 2^32`). -/
def complement32 (m : Nat) : Nat := (BASE - 1) - m

/-- The operation `u32::leading_zeros` for values below `2^32`. -/
def leadingZeros32 (n : Nat) : Nat :=
  BITS - (if n = 0 then 0 else Nat.log2 n + 1)

/-- The struct `FixedBigUint<B>`: little-endian digit vector plus the
most-significant-digit mask.  The phantom width parameter is passed to the
operations as an explicit `bitLen : Nat` (the value of `B::bit_len()`). -/
structure FixedBigUint where
  data : List Nat
  mask : Nat
deriving DecidableEq, Repr

/-- The digit count computed in `FixedBigUint::new`:
`div = bit_len / 32`, `rem = bit_len % 32`, `if rem == 0 { div } else { div+1 }`. -/
def digitLenOf (bitLen : Nat) : Nat :=
  if bitLen % BITS = 0 then bitLen / BITS else bitLen / BITS + 1

/-- Constructor `FixedBigUint::new`: truncate to `digit_len` digits, zero-pad at the
most-significant end, and mask the most-significant digit. -/
def FixedBigUint.new (bitLen : Nat) (digits : List Nat) : FixedBigUint :=
  let digitLen := digitLenOf bitLen
  let mask := ones_mask (bitLen % BITS)
  let truncated := digits.take digitLen
  let padded := truncated ++ List.replicate (digitLen - truncated.length) 0
  let msd := (padded.getLast?.getD 0) &&& mask
  { data := padded.dropLast ++ [msd], mask := mask }

/-- Embedding of `Zero::zero`: `FixedBigUint::new(vec![0])`. -/
def FixedBigUint.zero (bitLen : Nat) : FixedBigUint :=
  FixedBigUint.new bitLen [0]

/-- Embedding of `Zero::is_zero`: every digit is zero. -/
def FixedBigUint.isZero (x : FixedBigUint) : Bool :=
  x.data.all (fun d => d == 0)

/-- The digit loop of `cmp_slice` after the length checks: compare the
reversed (most-significant-first) digit lists, returning the first
non-equal comparison. -/
def cmpRev : List Nat → List Nat → Ordering
  | a :: as, b :: bs =>
    if a < b then .lt else if b < a then .gt else cmpRev as bs
  | _, _ => .eq

/-- Embedding of `cmp_slice`: shorter is smaller; on equal lengths compare digits from
most significant to least significant. -/
def cmp_slice (a b : List Nat) : Ordering :=
  if a.length < b.length then .lt
  else if b.length < a.length then .gt
  else cmpRev a.reverse b.reverse

/-- The two `debug_assert!`s at the head of `cmp_slice`:
`a.last() != Some(&0)` and `b.last() != Some(&0)`. -/
def cmpSliceAssertsHold (a b : List Nat) : Prop :=
  a.getLast? ≠ some 0 ∧ b.getLast? ≠ some 0

/-- Embedding of `Ord::cmp` for `FixedBigUint` (after its length/size assertions):
`cmp_slice` on the digit vectors. -/
def FixedBigUint.cmp (x y : FixedBigUint) : Ordering :=
  cmp_slice x.data y.data

/-- The loop of `__add`: per digit, an extra carry-absorbing `adc(ai, 0, carry)`
when a carry is pending, then `ci += adc(ai, bi, carry)` with wrapping `+=`.
Returns the result digits and the final loop carry. -/
def addLoop : List Nat → List Nat → Nat → List Nat × Nat
  | a :: as, b :: bs, carry =>
    let p := if carry ≠ 0 then adc a 0 carry else (0, carry)
    let q := adc a b p.2
    let rest := addLoop as bs q.2
    (((p.1 + q.1) % BASE) :: rest.1, rest.2)
  | _, _, carry => ([], carry)

/-- The final carry clamping shared by both additions:
`(carry & !mask) >> (BITS - mask.leading_zeros())`. -/
def clampCarry (carry mask : Nat) : Nat :=
  (carry &&& complement32 mask) >>> (BITS - leadingZeros32 mask)

/-- Embedding of `__add`: run the digit loop, rebuild through `FixedBigUint::new`, and
clamp the leftover carry against the result mask. -/
def fixedAdd (bitLen : Nat) (a b : List Nat) : FixedBigUint × Nat :=
  let r := addLoop a b 0
  let c := FixedBigUint.new bitLen r.1
  (c, clampCarry r.2 c.mask)

/-- The loop of `__add_assign`: when a carry is pending, `*ai` is first
reassigned to `adc(*ai, 0, carry)`; then `*ai += adc(*ai, *bi, carry)` uses
the updated `*ai` on both sides, with wrapping `+=`. -/
def addAssignLoop : List Nat → List Nat → Nat → List Nat × Nat
  | a :: as, b :: bs, carry =>
    let p := if carry ≠ 0 then adc a 0 carry else (a, carry)
    let q := adc p.1 b p.2
    let rest := addAssignLoop as bs q.2
    (((p.1 + q.1) % BASE) :: rest.1, rest.2)
  | as, _, carry => (as, carry)

/-- Embedding of `__add_assign`: mutate the left slice in place and clamp the leftover
carry against the caller-supplied mask; the digits are never re-masked. -/
def fixedAddAssign (a b : List Nat) (mask : Nat) : List Nat × Nat :=
  let r := addAssignLoop a b 0
  (r.1, clampCarry r.2 mask)

/-- The public `Add` impl: calls `__add` and discards the overflow digit. -/
def addOp (bitLen : Nat) (x y : FixedBigUint) : FixedBigUint :=
  (fixedAdd bitLen x.data y.data).1

/-- The public `AddAssign` impl: calls `__add_assign` with `self.mask`,
keeps the mutated digits, and discards the overflow digit. -/
def addAssignOp (x y : FixedBigUint) : FixedBigUint :=
  { data := (fixedAddAssign x.data y.data x.mask).1, mask := x.mask }

/-- Numeric value of a little-endian digit vector. -/
def listValue : List Nat → Nat
  | [] => 0
  | d :: ds => d + BASE * listValue ds

/-- The representation invariant of a live `FixedBigUint` of width `bitLen`:
correct digit count, the mask computed for that width, machine-word digits,
and a most-significant digit with no bits outside the mask. -/
def Inv (bitLen : Nat) (x : FixedBigUint) : Prop :=
  x.data.length = digitLenOf bitLen ∧
  x.mask = ones_mask (bitLen % BITS) ∧
  (∀ d ∈ x.data, d < BASE) ∧
  (x.data.getLast?.getD 0) &&& x.mask = x.data.getLast?.getD 0

theorem digitLenOf_eq_ceil (bitLen : Nat) : digitLenOf bitLen = (bitLen + 31) / 32 := by
  simp only [digitLenOf, BITS]
  split <;> omega

theorem digitLenOf_pos (bitLen : Nat) (h : 0 < bitLen) : 0 < digitLenOf bitLen := by
  simp only [digitLenOf, BITS]
  split <;> omega

theorem onesMaskLoop_eq (k m : Nat) : onesMaskLoop k m = (m + 1) * 2 ^ k - 1 := by
  induction k generalizing m with
  | zero => simp [onesMaskLoop]
  | succ k ih =>
    rw [onesMaskLoop, ih, pow_succ]
    congr 1
    ring

theorem ones_mask_eq (o : Nat) : ones_mask o = 2 ^ (o % 32) - 1 := by
  simp [ones_mask, BITS, onesMaskLoop_eq]

theorem and_two_pow_sub_one (x r : Nat) : x &&& (2 ^ r - 1) = x % 2 ^ r := by
  apply Nat.eq_of_testBit_eq
  intro i
  rw [Nat.testBit_and, Nat.testBit_two_pow_sub_one, Nat.testBit_mod_two_pow]
  exact Bool.and_comm _ _

theorem and_high_eq_zero {y r : Nat} (hy : y < 2 ^ r) (hr : r ≤ 32) :
    y &&& (2 ^ 32 - 2 ^ r) = 0 := by
  apply Nat.eq_of_testBit_eq
  intro i
  rw [Nat.testBit_and, Nat.zero_testBit]
  rcases lt_or_le i r with hi | hi
  · have hdvd : 2 ^ r ∣ 2 ^ 32 - 2 ^ r := Nat.dvd_sub' (pow_dvd_pow 2 hr) dvd_rfl
    have hmod : (2 ^ 32 - 2 ^ r) % 2 ^ r = 0 := by
      obtain ⟨c, hc⟩ := hdvd
      rw [hc, Nat.mul_mod_right]
    have hb := Nat.testBit_mod_two_pow (2 ^ 32 - 2 ^ r) r i
    rw [hmod, Nat.zero_testBit] at hb
    have hbit : (2 ^ 32 - 2 ^ r).testBit i = false := by
      simpa [hi] using hb.symm
    rw [hbit, Bool.and_false]
  · have hyi : y < 2 ^ i := lt_of_lt_of_le hy (Nat.pow_le_pow_right (by norm_num) hi)
    rw [Nat.testBit_lt_two_pow hyi, Bool.false_and]

theorem complement32_two_pow_sub_one {r : Nat} (h : r ≤ 32) :
    complement32 (2 ^ r - 1) = 2 ^ 32 - 2 ^ r := by
  have h1 : (2 : Nat) ^ r ≤ 2 ^ 32 := Nat.pow_le_pow_right (by norm_num) h
  have h2 : (1 : Nat) ≤ 2 ^ r := Nat.one_le_two_pow
  simp only [complement32, BASE]
  omega

theorem new_data_of_le (bitLen : Nat) (ds : List Nat) (h1 : 0 < digitLenOf bitLen)
    (h : digitLenOf bitLen ≤ ds.length) :
    (FixedBigUint.new bitLen ds).data
      = ds.take (digitLenOf bitLen - 1)
          ++ [(ds.getD (digitLenOf bitLen - 1) 0) &&& ones_mask (bitLen % BITS)] := by
  simp only [FixedBigUint.new]
  set n := digitLenOf bitLen with hn
  have hlt : (ds.take n).length = n := by
    simp [List.length_take]
    omega
  rw [hlt, Nat.sub_self, List.replicate_zero, List.append_nil]
  have hdl : (ds.take n).dropLast = ds.take (n - 1) := by
    rw [List.dropLast_eq_take, hlt, List.take_take]
    congr 1
    omega
  have hgl : (ds.take n).getLast?.getD 0 = ds.getD (n - 1) 0 := by
    rw [List.getLast?_eq_getElem?, hlt, List.getElem?_take, if_pos (by omega : n - 1 < n),
      ← List.getD_eq_getElem?_getD]
  rw [hdl, hgl]

theorem new_data_of_lt (bitLen : Nat) (ds : List Nat) (h : ds.length < digitLenOf bitLen) :
    (FixedBigUint.new bitLen ds).data
      = ds ++ List.replicate (digitLenOf bitLen - ds.length) 0 := by
  simp only [FixedBigUint.new]
  set n := digitLenOf bitLen with hn
  have htake : ds.take n = ds := List.take_of_length_le (le_of_lt h)
  rw [htake]
  obtain ⟨k, hk⟩ : ∃ k, n - ds.length = k + 1 := ⟨n - ds.length - 1, by omega⟩
  rw [hk, List.replicate_succ' k, ← List.append_assoc, List.getLast?_concat,
    List.dropLast_concat]
  simp only [Option.getD_some, Nat.zero_and]

/-- Claim C6: construction always yields exactly ceil(bit_len/32) digits; a
longer input keeps exactly its low digits with the top one masked, a shorter
input is zero-padded at the most significant end, the most significant digit
of the result has no bits outside the mask, and at width 100 the input
[1, 0, 0, 0xFF] yields top digit 0xF. -/
theorem C6_new_truncate_pad_mask (bitLen : Nat) (ds : List Nat) (h : 0 < bitLen) :
    (FixedBigUint.new bitLen ds).data.length = (bitLen + 31) / 32 ∧
    (digitLenOf bitLen ≤ ds.length →
      (FixedBigUint.new bitLen ds).data
        = ds.take (digitLenOf bitLen - 1)
            ++ [(ds.getD (digitLenOf bitLen - 1) 0) &&& ones_mask (bitLen % BITS)]) ∧
    (ds.length < digitLenOf bitLen →
      (FixedBigUint.new bitLen ds).data
        = ds ++ List.replicate (digitLenOf bitLen - ds.length) 0) ∧
    ((FixedBigUint.new bitLen ds).data.getLast?.getD 0)
        &&& complement32 (FixedBigUint.new bitLen ds).mask = 0 ∧
    (FixedBigUint.new 100 [1, 0, 0, 0xFF]).data = [1, 0, 0, 0xF] := by
  have hpos := digitLenOf_pos bitLen h
  have hceil := digitLenOf_eq_ceil bitLen
  refine ⟨?_, new_data_of_le bitLen ds hpos, new_data_of_lt bitLen ds, ?_, by decide⟩
  · rcases le_or_lt (digitLenOf bitLen) ds.length with hle | hlt
    · rw [new_data_of_le bitLen ds hpos hle]
      simp only [List.length_append, List.length_take, List.length_cons, List.length_nil]
      omega
    · rw [new_data_of_lt bitLen ds hlt]
      simp only [List.length_append, List.length_replicate]
      omega
  · simp only [FixedBigUint.new, List.getLast?_concat, Option.getD_some]
    rw [ones_mask_eq]
    have hr : (bitLen % BITS) % 32 = bitLen % 32 := by
      simp [BITS, Nat.mod_mod_of_dvd]
    rw [hr, complement32_two_pow_sub_one (by omega : bitLen % 32 ≤ 32),
      and_two_pow_sub_one]
    exact and_high_eq_zero (Nat.mod_lt _ (Nat.two_pow_pos _)) (by omega)

/-- Claim C6 witness at width 100 with a too-long input. -/
theorem C6_witness :
    0 < 100 ∧
    (FixedBigUint.new 100 [1, 2, 3, 4, 5, 6]).data.length = (100 + 31) / 32 ∧
    (digitLenOf 100 ≤ ([1, 2, 3, 4, 5, 6] : List Nat).length →
      (FixedBigUint.new 100 [1, 2, 3, 4, 5, 6]).data
        = ([1, 2, 3, 4, 5, 6] : List Nat).take (digitLenOf 100 - 1)
            ++ [(([1, 2, 3, 4, 5, 6] : List Nat).getD (digitLenOf 100 - 1) 0)
              &&& ones_mask (100 % BITS)]) ∧
    (([1, 2, 3, 4, 5, 6] : List Nat).length < digitLenOf 100 →
      (FixedBigUint.new 100 [1, 2, 3, 4, 5, 6]).data
        = [1, 2, 3, 4, 5, 6]
            ++ List.replicate (digitLenOf 100 - ([1, 2, 3, 4, 5, 6] : List Nat).length) 0) ∧
    ((FixedBigUint.new 100 [1, 2, 3, 4, 5, 6]).data.getLast?.getD 0)
        &&& complement32 (FixedBigUint.new 100 [1, 2, 3, 4, 5, 6]).mask = 0 ∧
    (FixedBigUint.new 100 [1, 0, 0, 0xFF]).data = [1, 0, 0, 0xF] :=
  ⟨by decide, C6_new_truncate_pad_mask 100 [1, 2, 3, 4, 5, 6] (by decide)⟩

theorem FixedBigUint.ext' : ∀ {x y : FixedBigUint}, x.data = y.data → x.mask = y.mask → x = y
  | ⟨_, _⟩, ⟨_, _⟩, rfl, rfl => rfl

theorem zero_data (bitLen : Nat) (h : 0 < bitLen) :
    (FixedBigUint.zero bitLen).data = List.replicate (digitLenOf bitLen) 0 := by
  have hpos := digitLenOf_pos bitLen h
  rcases Nat.lt_or_ge 1 (digitLenOf bitLen) with hgt | hle
  · rw [FixedBigUint.zero, new_data_of_lt bitLen [0] (by simpa using hgt)]
    have hrep : ([0] : List Nat) ++ List.replicate (digitLenOf bitLen - 1) 0
        = List.replicate (digitLenOf bitLen - 1 + 1) 0 := by
      rw [List.replicate_succ]
      rfl
    simp only [List.length_singleton]
    rw [hrep, show digitLenOf bitLen - 1 + 1 = digitLenOf bitLen from by omega]
  · have h1 : digitLenOf bitLen = 1 := by omega
    rw [FixedBigUint.zero, new_data_of_le bitLen [0] hpos (by simp [h1])]
    simp [h1]

theorem addLoop_zero_right (xs : List Nat) (hd : ∀ d ∈ xs, d < BASE) :
    addLoop xs (List.replicate xs.length 0) 0 = (xs, 0) := by
  induction xs with
  | nil => rfl
  | cons a as ih =>
    have ha : a < BASE := hd a (by simp)
    have has : ∀ d ∈ as, d < BASE := fun d hdm => hd d (by simp [hdm])
    rw [List.length_cons, List.replicate_succ]
    simp [addLoop, adc, Nat.mod_eq_of_lt ha, Nat.div_eq_of_lt ha, ih has]

theorem new_of_inv (bitLen : Nat) (x : FixedBigUint) (h : 0 < bitLen) (hI : Inv bitLen x) :
    FixedBigUint.new bitLen x.data = x := by
  obtain ⟨hlen, hmask, hdig, hmsd⟩ := hI
  have hpos := digitLenOf_pos bitLen h
  have hne : x.data ≠ [] := by
    intro hcon
    rw [hcon] at hlen
    simp only [List.length_nil] at hlen
    omega
  have hdata := new_data_of_le bitLen x.data hpos (le_of_eq hlen.symm)
  have hgl : x.data.getD (digitLenOf bitLen - 1) 0 = x.data.getLast?.getD 0 := by
    rw [List.getLast?_eq_getElem?, List.getD_eq_getElem?_getD, hlen]
  have htail : x.data.take (digitLenOf bitLen - 1) = x.data.dropLast := by
    rw [List.dropLast_eq_take, hlen]
  rw [hgl, htail, ← hmask, hmsd] at hdata
  have hfix : x.data.dropLast ++ [x.data.getLast?.getD 0] = x.data := by
    rw [List.getLast?_eq_getLast x.data hne, Option.getD_some]
    exact List.dropLast_append_getLast hne
  rw [hfix] at hdata
  exact FixedBigUint.ext' hdata hmask.symm

/-- Claim C7: adding zero() on the right is the identity: for every width and
every value satisfying the representation invariant, the allocating addition
with zero() returns the value unchanged and overflow digit 0. -/
theorem C7_add_zero_identity (bitLen : Nat) (x : FixedBigUint) (h : 0 < bitLen)
    (hI : Inv bitLen x) :
    fixedAdd bitLen x.data (FixedBigUint.zero bitLen).data = (x, 0) := by
  have hz := zero_data bitLen h
  have hlen : x.data.length = digitLenOf bitLen := hI.1
  have hd : ∀ d ∈ x.data, d < BASE := hI.2.2.1
  simp only [fixedAdd]
  rw [hz, ← hlen, addLoop_zero_right x.data hd]
  show (FixedBigUint.new bitLen x.data,
      clampCarry 0 (FixedBigUint.new bitLen x.data).mask) = (x, 0)
  rw [new_of_inv bitLen x h hI]
  simp [clampCarry, Nat.zero_and, Nat.zero_shiftRight]

/-- Claim C7 witness at width 100. -/
theorem C7_witness :
    (0 < 100 ∧ Inv 100 (FixedBigUint.new 100 [5, 6, 7, 8])) ∧
    fixedAdd 100 (FixedBigUint.new 100 [5, 6, 7, 8]).data (FixedBigUint.zero 100).data
      = (FixedBigUint.new 100 [5, 6, 7, 8], 0) :=
  ⟨⟨by decide, by unfold Inv; decide⟩,
   C7_add_zero_identity 100 (FixedBigUint.new 100 [5, 6, 7, 8]) (by decide)
     (by unfold Inv; decide)⟩

theorem cmpRev_swap (xs : List Nat) : ∀ ys, cmpRev ys xs = (cmpRev xs ys).swap := by
  induction xs with
  | nil =>
    intro ys
    cases ys <;> rfl
  | cons x xs ih =>
    intro ys
    cases ys with
    | nil => rfl
    | cons y ys =>
      show (if y < x then Ordering.lt else if x < y then Ordering.gt else cmpRev ys xs)
          = (if x < y then Ordering.lt else if y < x then Ordering.gt else cmpRev xs ys).swap
      rcases Nat.lt_trichotomy x y with hxy | hxy | hxy
      · have h2 : ¬ y < x := by omega
        simp only [if_neg h2, if_pos hxy]
        rfl
      · subst hxy
        have h2 : ¬ x < x := by omega
        simp only [if_neg h2]
        exact ih ys
      · have h2 : ¬ x < y := by omega
        simp only [if_pos hxy, if_neg h2]
        rfl

theorem cmpRev_eq_iff (xs : List Nat) : ∀ ys, xs.length = ys.length →
    (cmpRev xs ys = Ordering.eq ↔ xs = ys) := by
  induction xs with
  | nil =>
    intro ys hlen
    cases ys with
    | nil => exact iff_of_true rfl rfl
    | cons y ys => simp at hlen
  | cons x xs ih =>
    intro ys hlen
    cases ys with
    | nil => simp at hlen
    | cons y ys =>
      have hlen' : xs.length = ys.length := by simpa using hlen
      show (if x < y then Ordering.lt else if y < x then Ordering.gt else cmpRev xs ys)
          = Ordering.eq ↔ x :: xs = y :: ys
      rcases Nat.lt_trichotomy x y with hxy | hxy | hxy
      · simp only [if_pos hxy, List.cons.injEq]
        constructor
        · intro hcon
          exact Ordering.noConfusion hcon
        · rintro ⟨h1, -⟩
          omega
      · subst hxy
        have h2 : ¬ x < x := by omega
        simp only [if_neg h2, List.cons.injEq, eq_self_iff_true, true_and]
        exact ih ys hlen'
      · have h2 : ¬ x < y := by omega
        simp only [if_neg h2, if_pos hxy, List.cons.injEq]
        constructor
        · intro hcon
          exact Ordering.noConfusion hcon
        · rintro ⟨h1, -⟩
          omega

theorem cmpRev_lt_iff (xs : List Nat) : ∀ ys, xs.length = ys.length →
    (cmpRev xs ys = Ordering.lt ↔
      ∃ k, k < xs.length ∧ xs.take k = ys.take k ∧ xs.getD k 0 < ys.getD k 0) := by
  induction xs with
  | nil =>
    intro ys hlen
    cases ys with
    | nil =>
      constructor
      · intro hcon
        exact Ordering.noConfusion hcon
      · rintro ⟨k, hk, -, -⟩
        simp at hk
    | cons y ys => simp at hlen
  | cons x xs ih =>
    intro ys hlen
    cases ys with
    | nil => simp at hlen
    | cons y ys =>
      have hlen' : xs.length = ys.length := by simpa using hlen
      show (if x < y then Ordering.lt else if y < x then Ordering.gt else cmpRev xs ys)
          = Ordering.lt ↔
          ∃ k, k < (x :: xs).length ∧
            (x :: xs).take k = (y :: ys).take k ∧ (x :: xs).getD k 0 < (y :: ys).getD k 0
      rcases Nat.lt_trichotomy x y with hxy | hxy | hxy
      · simp only [if_pos hxy]
        refine iff_of_true trivial ⟨0, by simp, rfl, by simpa using hxy⟩
      · subst hxy
        have h2 : ¬ x < x := by omega
        simp only [if_neg h2]
        rw [ih ys hlen']
        constructor
        · rintro ⟨j, hj, htk, hlt⟩
          refine ⟨j + 1, ?_, ?_, ?_⟩
          · simpa using Nat.succ_lt_succ hj
          · simp [List.take_succ_cons, htk]
          · simpa [List.getD_cons_succ] using hlt
        · rintro ⟨k, hk, htk, hlt⟩
          cases k with
          | zero =>
            simp [List.getD_cons_zero] at hlt
          | succ j =>
            have hj : j < xs.length := by
              simp only [List.length_cons] at hk
              omega
            have htk' : xs.take j = ys.take j := by
              simp only [List.take_succ_cons, List.cons.injEq] at htk
              exact htk.2
            refine ⟨j, hj, htk', ?_⟩
            simpa [List.getD_cons_succ] using hlt
      · have h2 : ¬ x < y := by omega
        simp only [if_neg h2, if_pos hxy]
        constructor
        · intro hcon
          exact Ordering.noConfusion hcon
        · rintro ⟨k, hk, htk, hlt⟩
          cases k with
          | zero =>
            simp [List.getD_cons_zero] at hlt
            omega
          | succ j =>
            simp only [List.take_succ_cons, List.cons.injEq] at htk
            omega

theorem cmpRev_gt_iff (xs ys : List Nat) (hlen : xs.length = ys.length) :
    cmpRev xs ys = Ordering.gt ↔
      ∃ k, k < xs.length ∧ xs.take k = ys.take k ∧ ys.getD k 0 < xs.getD k 0 := by
  have hiff : cmpRev xs ys = Ordering.gt ↔ cmpRev ys xs = Ordering.lt := by
    rw [cmpRev_swap xs ys]
    cases cmpRev xs ys <;> simp [Ordering.swap]
  rw [hiff, cmpRev_lt_iff ys xs hlen.symm]
  constructor
  · rintro ⟨k, hk, ht, hl⟩
    exact ⟨k, by omega, ht.symm, hl⟩
  · rintro ⟨k, hk, ht, hl⟩
    exact ⟨k, by omega, ht.symm, hl⟩

/-- Claim C9: comparison of equal-length values is total (exactly one of
lt, eq, gt holds), equality means digit-wise equality, and lt/gt agree with
comparing digits from most significant to least significant, deciding at the
first non-equal digit. -/
theorem C9_cmp_trichotomy_msd (x y : FixedBigUint) (h : x.data.length = y.data.length) :
    ((x.cmp y = Ordering.lt ∧ x.cmp y ≠ Ordering.eq ∧ x.cmp y ≠ Ordering.gt) ∨
     (x.cmp y = Ordering.eq ∧ x.cmp y ≠ Ordering.lt ∧ x.cmp y ≠ Ordering.gt) ∨
     (x.cmp y = Ordering.gt ∧ x.cmp y ≠ Ordering.lt ∧ x.cmp y ≠ Ordering.eq)) ∧
    (x.cmp y = Ordering.eq ↔ x.data = y.data) ∧
    (x.cmp y = Ordering.lt ↔
      ∃ k, k < x.data.length ∧ x.data.reverse.take k = y.data.reverse.take k ∧
        x.data.reverse.getD k 0 < y.data.reverse.getD k 0) ∧
    (x.cmp y = Ordering.gt ↔
      ∃ k, k < x.data.length ∧ x.data.reverse.take k = y.data.reverse.take k ∧
        y.data.reverse.getD k 0 < x.data.reverse.getD k 0) := by
  have hcmp : x.cmp y = cmpRev x.data.reverse y.data.reverse := by
    simp only [FixedBigUint.cmp, cmp_slice]
    rw [if_neg (by omega), if_neg (by omega)]
  have hrlen : x.data.reverse.length = y.data.reverse.length := by
    simpa using h
  have hxlen : x.data.reverse.length = x.data.length := by simp
  refine ⟨?_, ?_, ?_, ?_⟩
  · cases h3 : x.cmp y
    · exact Or.inl ⟨rfl, by simp, by simp⟩
    · exact Or.inr (Or.inl ⟨rfl, by simp, by simp⟩)
    · exact Or.inr (Or.inr ⟨rfl, by simp, by simp⟩)
  · rw [hcmp, cmpRev_eq_iff _ _ hrlen, List.reverse_inj]
  · rw [hcmp, cmpRev_lt_iff _ _ hrlen, hxlen]
  · rw [hcmp, cmpRev_gt_iff _ _ hrlen, hxlen]

/-- Claim C9 witness at width 128. -/
theorem C9_witness :
    ((FixedBigUint.new 128 [1, 2, 3, 0]).data.length
        = (FixedBigUint.new 128 [3, 2, 1, 0]).data.length) ∧
    ((FixedBigUint.new 128 [1, 2, 3, 0]).cmp (FixedBigUint.new 128 [3, 2, 1, 0])
        = Ordering.eq ↔
      (FixedBigUint.new 128 [1, 2, 3, 0]).data = (FixedBigUint.new 128 [3, 2, 1, 0]).data) :=
  ⟨by decide,
   (C9_cmp_trichotomy_msd (FixedBigUint.new 128 [1, 2, 3, 0])
     (FixedBigUint.new 128 [3, 2, 1, 0]) (by decide)).2.1⟩

/-- Claim C1: at width 128 the constructor zeroes the most significant digit
(because the computed mask is 0), and the allocating addition of the claimed
operands returns the overflow digit 0, not the claimed non-zero overflow 1. -/
theorem C1_overflow_scenario_eval :
    (FixedBigUint.new 128 [0xFFFFFFFF, 0xFFFFFFFF, 0xFFFFFFFF, 0xFFFFFFFF]).data
      = [0xFFFFFFFF, 0xFFFFFFFF, 0xFFFFFFFF, 0] ∧
    fixedAdd 128 (FixedBigUint.new 128 [0xFFFFFFFF, 0xFFFFFFFF, 0xFFFFFFFF, 0xFFFFFFFF]).data
        (FixedBigUint.new 128 [1, 0, 0, 0]).data
      = (⟨[0, 0, 0, 0], 0⟩, 0) := by
  decide

/-- Claim C2: for a width divisible by 32 (here 128) the computed mask is 0,
not the all-ones digit 0xFFFFFFFF the claim requires. -/
theorem C2_mask_rem_zero_eval :
    ones_mask (128 % BITS) = 0 ∧
    (FixedBigUint.new 128 [0, 0, 0, 0x12345678]).mask = 0 ∧
    (FixedBigUint.new 128 [0, 0, 0, 0x12345678]).mask ≠ 0xFFFFFFFF := by
  decide

/-- Claim C3: the allocating addition is not commutative; at width 128 with
a = new [0xFFFFFFFF, 5, 0, 0] and b = new [1, 0, 0, 0], a + b has digits
[0, 11, 0, 0] while b + a has digits [0, 6, 0, 0]. -/
theorem C3_add_not_commutative_eval :
    (addOp 128 (FixedBigUint.new 128 [0xFFFFFFFF, 5, 0, 0])
        (FixedBigUint.new 128 [1, 0, 0, 0])).data = [0, 11, 0, 0] ∧
    (addOp 128 (FixedBigUint.new 128 [1, 0, 0, 0])
        (FixedBigUint.new 128 [0xFFFFFFFF, 5, 0, 0])).data = [0, 6, 0, 0] ∧
    addOp 128 (FixedBigUint.new 128 [0xFFFFFFFF, 5, 0, 0]) (FixedBigUint.new 128 [1, 0, 0, 0])
      ≠ addOp 128 (FixedBigUint.new 128 [1, 0, 0, 0])
          (FixedBigUint.new 128 [0xFFFFFFFF, 5, 0, 0]) := by
  decide

/-- Claim C4: in-place addition does not agree with the allocating addition;
at width 128 with a = new [1, 0, 0, 0] and b = new [2, 0, 0, 0], the in-place
sum digits are [4, 0, 0, 0] while the allocating sum digits are [3, 0, 0, 0]. -/
theorem C4_inplace_not_equiv_eval :
    (fixedAddAssign (FixedBigUint.new 128 [1, 0, 0, 0]).data
        (FixedBigUint.new 128 [2, 0, 0, 0]).data
        (FixedBigUint.new 128 [1, 0, 0, 0]).mask).1 = [4, 0, 0, 0] ∧
    (fixedAdd 128 (FixedBigUint.new 128 [1, 0, 0, 0]).data
        (FixedBigUint.new 128 [2, 0, 0, 0]).data).1.data = [3, 0, 0, 0] ∧
    (fixedAddAssign (FixedBigUint.new 128 [1, 0, 0, 0]).data
        (FixedBigUint.new 128 [2, 0, 0, 0]).data
        (FixedBigUint.new 128 [1, 0, 0, 0]).mask).1
      ≠ (fixedAdd 128 (FixedBigUint.new 128 [1, 0, 0, 0]).data
          (FixedBigUint.new 128 [2, 0, 0, 0]).data).1.data := by
  decide

/-- Claim C5 counterexample: the public allocating addition does not report
overflow to its caller.  At width 100, new [0,0,0,0xF] + new [0,0,0,1]
(numeric sum exactly 2^100, an overflow) and zero + zero (no overflow)
return the identical public output, so the overflow digit computed by the
internal helper is not part of what the public operation returns. -/
theorem C5_public_add_no_overflow_cex :
    addOp 100 (FixedBigUint.new 100 [0, 0, 0, 0xF]) (FixedBigUint.new 100 [0, 0, 0, 1])
      = addOp 100 (FixedBigUint.zero 100) (FixedBigUint.zero 100) ∧
    2 ^ 100 ≤ listValue (FixedBigUint.new 100 [0, 0, 0, 0xF]).data
        + listValue (FixedBigUint.new 100 [0, 0, 0, 1]).data ∧
    listValue (FixedBigUint.zero 100).data + listValue (FixedBigUint.zero 100).data
      < 2 ^ 100 := by
  decide

/-- Claim C5 amended: the internal helpers do return the overflow digit
(here a raw-slice width-128 addition reporting overflow 1), while the public
operator impls forward to them and keep only the result, discarding the
overflow digit. -/
theorem C5_helpers_report_publics_discard :
    (∀ bitLen x y, addOp bitLen x y = (fixedAdd bitLen x.data y.data).1) ∧
    (∀ x y : FixedBigUint,
      addAssignOp x y = ⟨(fixedAddAssign x.data y.data x.mask).1, x.mask⟩) ∧
    (fixedAdd 128 [0xFFFFFFFF, 0xFFFFFFFF, 0xFFFFFFFF, 0xFFFFFFFF] [1, 0, 0, 0]).2 = 1 := by
  refine ⟨fun _ _ _ => rfl, fun _ _ => rfl, by decide⟩

/-- Claim C8: the masking invariant is not preserved by in-place addition; at
width 128 adding new [0xFFFFFFFF, 0xFFFFFFFF, 0xFFFFFFFF, 0] to itself in
place yields top digit 2, which has bits outside the (zero) mask. -/
theorem C8_inplace_breaks_mask_invariant_eval :
    (addAssignOp (FixedBigUint.new 128 [0xFFFFFFFF, 0xFFFFFFFF, 0xFFFFFFFF, 0])
        (FixedBigUint.new 128 [0xFFFFFFFF, 0xFFFFFFFF, 0xFFFFFFFF, 0])).data
      = [0xFFFFFFFD, 0, 0, 2] ∧
    ((addAssignOp (FixedBigUint.new 128 [0xFFFFFFFF, 0xFFFFFFFF, 0xFFFFFFFF, 0])
        (FixedBigUint.new 128 [0xFFFFFFFF, 0xFFFFFFFF, 0xFFFFFFFF, 0])).data.getLast?.getD 0)
        &&& complement32
          (addAssignOp (FixedBigUint.new 128 [0xFFFFFFFF, 0xFFFFFFFF, 0xFFFFFFFF, 0])
            (FixedBigUint.new 128 [0xFFFFFFFF, 0xFFFFFFFF, 0xFFFFFFFF, 0])).mask
      ≠ 0 := by
  decide

/-- Claim C10: the debug assertions inside the slice comparison fail on
values produced by the public constructors: the most significant digit of
zero() at width 128 is 0, so comparing zero() with itself violates them. -/
theorem C10_cmp_asserts_fail_on_zero :
    (FixedBigUint.zero 128).data.getLast? = some 0 ∧
    ¬ cmpSliceAssertsHold (FixedBigUint.zero 128).data (FixedBigUint.zero 128).data := by
  refine ⟨by decide, ?_⟩
  unfold cmpSliceAssertsHold
  decide

end FixedNum
